import Mathlib

/-!
Shallow embedding of `fft.py` (polynomial evaluation / interpolation via a
radix-2 recursive FFT) and verification of the spec's claims about it.

Complex numbers are modelled exactly (`ℂ`), idealizing the source's
double-precision floats; Python runtime failures (the `assert` in `ifft`,
`ZeroDivisionError`, unbounded recursion) are modelled with `Except PyErr`.
-/

namespace FFTPy

/-- The Python failure outcomes that the functions of `fft.py` can produce:
the `assert` in `ifft`, the `ZeroDivisionError` from `... / degree` when
`degree == 0`, and the `RecursionError` that `_fft` hits on an empty list
(it recurses on `p[::2] == []` forever, so CPython aborts the recursion). -/
inductive PyErr
  | assertionError
  | zeroDivisionError
  | recursionError
deriving DecidableEq

/-- Python's slice `p[::2]`: every second element starting at index 0.
The odd slice `p[1::2]` is `everyOther p.tail`. -/
def everyOther {α : Type} : List α → List α
  | [] => []
  | [a] => [a]
  | a :: _ :: rest => a :: everyOther rest

theorem everyOther_length {α : Type} (l : List α) :
    (everyOther l).length = (l.length + 1) / 2 := by
  induction l using everyOther.induct with
  | case1 => simp [everyOther]
  | case2 a => simp [everyOther]
  | case3 a b rest ih =>
    simp only [everyOther, List.length_cons, ih]
    omega

/-- `is_power_2` from fft.py, line 39: `x & (x - 1) == 0`.
On `Nat`, `0 - 1 = 0` and `0 &&& 0 = 0`, matching Python's
`0 & -1 == 0`: the check also accepts `0`. -/
def is_power_2 (x : Nat) : Bool := x &&& (x - 1) == 0

theorem is_power_2_pow (k : Nat) : is_power_2 (2 ^ k) = true := by
  have h : 2 ^ k &&& (2 ^ k - 1) = 0 := by
    apply Nat.eq_of_testBit_eq
    intro i
    rw [Nat.testBit_land, Nat.zero_testBit, Nat.testBit_two_pow_sub_one]
    rcases eq_or_ne k i with rfl | hki
    · simp
    · simp [Nat.testBit_two_pow_of_ne hki]
  simp [is_power_2, h]

theorem is_power_2_iff {n : Nat} (hn : 1 ≤ n) :
    is_power_2 n = true ↔ ∃ k, n = 2 ^ k := by
  constructor
  · intro h
    refine ⟨n.size - 1, ?_⟩
    by_contra hne
    have hs : 0 < n.size := Nat.size_pos.mpr hn
    have hlow : 2 ^ (n.size - 1) ≤ n := Nat.lt_size.mp (by omega)
    have hhigh : n < 2 ^ n.size := Nat.lt_size_self n
    have hlt : 2 ^ (n.size - 1) < n := lt_of_le_of_ne hlow fun he => hne he.symm
    have h2 : 2 ^ n.size = 2 * 2 ^ (n.size - 1) := by
      rw [← pow_succ']
      congr 1
      omega
    have hb : ∀ m, 2 ^ (n.size - 1) ≤ m → m < 2 ^ n.size →
        Nat.testBit m (n.size - 1) = true := by
      intro m h1 h2'
      rw [Nat.testBit_to_div_mod]
      have hdiv : m / 2 ^ (n.size - 1) = 1 := by
        apply Nat.div_eq_of_lt_le
        · simpa using h1
        · omega
      simp [hdiv]
    have hland : n &&& (n - 1) = 0 := by simpa [is_power_2] using h
    have hcontra := congrArg (fun x => Nat.testBit x (n.size - 1)) hland
    simp only [Nat.testBit_land, Nat.zero_testBit] at hcontra
    rw [hb n hlow hhigh, hb (n - 1) (by omega) (by omega)] at hcontra
    simp at hcontra
  · rintro ⟨k, rfl⟩
    exact is_power_2_pow k

/-- The padding loop at the top of `fft` (fft.py lines 44-47):
`while not is_power_2(degree): cs.append(0); degree += 1`.
Python's `append` mutates the caller's list, so this is both the sequence
the kernel receives and the contents of the caller's argument afterwards. -/
def pad (cs : List ℂ) : List ℂ :=
  if is_power_2 cs.length then cs
  else pad (cs ++ [0])
termination_by 2 ^ Nat.clog 2 cs.length - cs.length
decreasing_by
  rename_i h
  simp only [List.length_append, List.length_cons, List.length_nil, Nat.zero_add]
  have hle : cs.length ≤ 2 ^ Nat.clog 2 cs.length := Nat.le_pow_clog one_lt_two _
  have hne : cs.length ≠ 2 ^ Nat.clog 2 cs.length := fun he =>
    h (by rw [he]; exact is_power_2_pow _)
  have hlt : cs.length < 2 ^ Nat.clog 2 cs.length := lt_of_le_of_ne hle hne
  have hclog : Nat.clog 2 (cs.length + 1) ≤ Nat.clog 2 cs.length :=
    (Nat.le_pow_iff_clog_le one_lt_two).mp (by omega)
  have hpow : 2 ^ Nat.clog 2 (cs.length + 1) ≤ 2 ^ Nat.clog 2 cs.length :=
    Nat.pow_le_pow_right (by norm_num) hclog
  omega

/-- `_fft` from fft.py, lines 22-36, the recursive kernel.  The base case
returns the (one-element) list itself; both recursive calls receive the same
root `w` unreduced; the combine step fills `q = [0] * degree` at positions
`i` and `i + degree // 2` for `i < degree // 2` (for odd `degree` the last
cell keeps its initial `0`, which the trailing `replicate` models).  The
source never checks its precondition, so any nonempty list produces a
result; only the empty list fails (unbounded recursion, `RecursionError`).
`getD i 0` stands for `q_even[i]` / `q_odd[i]`, which in the source are
always in bounds (each recursive result has the length of its input). -/
def fftRec (w : ℂ) (p : List ℂ) : Except PyErr (List ℂ) :=
  if p.length = 1 then .ok p
  else if p.length = 0 then .error .recursionError
  else
    match fftRec w (everyOther p), fftRec w (everyOther p.tail) with
    | .error e, _ => .error e
    | .ok _, .error e => .error e
    | .ok q_even, .ok q_odd =>
      .ok ((List.range (p.length / 2)).map
            (fun i => q_even.getD i 0 + w ^ i * q_odd.getD i 0)
        ++ (List.range (p.length / 2)).map
            (fun i => q_even.getD i 0 - w ^ i * q_odd.getD i 0)
        ++ List.replicate (p.length - 2 * (p.length / 2)) 0)
termination_by p.length
decreasing_by
  · have hl := everyOther_length (α := ℂ) p
    omega
  · have hl := everyOther_length (α := ℂ) p.tail
    simp only [List.length_tail] at hl
    omega

/-- `fft` from fft.py, lines 43-49: pad to a power-of-two length, then run
the kernel with the root `math.e ** (2 * math.pi * 1j / degree)`, i.e.
`e^{2πi/N}`.  For the empty input `is_power_2 0` holds, no padding happens,
and computing the root divides by zero. -/
noncomputable def fft (cs : List ℂ) : Except PyErr (List ℂ) :=
  let p := pad cs
  if p.length = 0 then .error .zeroDivisionError
  else fftRec (Complex.exp (2 * Real.pi * Complex.I / (p.length : ℂ))) p

/-- `ifft` from fft.py, lines 52-56: assert `is_power_2 (len ys)`, then run
the same kernel with the conjugate root `e^{-2πi/N}` and divide every output
entry by `N`.  For the empty input the assert passes (`is_power_2 0` is
true) and computing the root divides by zero. -/
noncomputable def ifft (ys : List ℂ) : Except PyErr (List ℂ) :=
  if is_power_2 ys.length = false then .error .assertionError
  else if ys.length = 0 then .error .zeroDivisionError
  else
    match fftRec (Complex.exp (-2 * Real.pi * Complex.I / (ys.length : ℂ))) ys with
    | .error e => .error e
    | .ok q => .ok (q.map fun y => y / (ys.length : ℂ))

/-- The contents of the caller's list after `fft cs` returns (or raises):
the padding loop runs `cs.append(0)` on the caller's own list object, so the
argument afterwards holds exactly `pad cs`.  `_fft` only reads its argument
(slices copy) and `ifft` builds a fresh list, so their arguments are
unchanged; `fft` is the one operation that writes to its argument. -/
def fft_arg_after (cs : List ℂ) : List ℂ := pad cs

/-- Modelled from the spec: direct evaluation of a polynomial given by
ascending-degree coefficients at a point (the spec's "evaluated directly
(via Horner's method or direct summation)").  The source has no such
function; this is the reference the spec compares `evaluate` against. -/
def evalPoly : List ℂ → ℂ → ℂ
  | [], _ => 0
  | c :: cs, x => c + x * evalPoly cs x

/-- Modelled from the spec: the "textbook formulation" of the kernel that
"squares the root at each recursion level (so that a sub-problem of size
`N/2` uses `ω_{N/2} = ω_N^2`)"; identical to `fftRec` except that the
recursive calls receive `w * w`. -/
def fftT (w : ℂ) (p : List ℂ) : Except PyErr (List ℂ) :=
  if p.length = 1 then .ok p
  else if p.length = 0 then .error .recursionError
  else
    match fftT (w * w) (everyOther p), fftT (w * w) (everyOther p.tail) with
    | .error e, _ => .error e
    | .ok _, .error e => .error e
    | .ok q_even, .ok q_odd =>
      .ok ((List.range (p.length / 2)).map
            (fun i => q_even.getD i 0 + w ^ i * q_odd.getD i 0)
        ++ (List.range (p.length / 2)).map
            (fun i => q_even.getD i 0 - w ^ i * q_odd.getD i 0)
        ++ List.replicate (p.length - 2 * (p.length / 2)) 0)
termination_by p.length
decreasing_by
  · have hl := everyOther_length (α := ℂ) p
    omega
  · have hl := everyOther_length (α := ℂ) p.tail
    simp only [List.length_tail] at hl
    omega

/-! ### Evaluation lemmas for the kernels on small power-of-two lengths -/

theorem fftRec_one (w a : ℂ) : fftRec w [a] = .ok [a] := by
  rw [fftRec]
  simp

theorem fftRec_pair (w a b : ℂ) : fftRec w [a, b] = .ok [a + b, a - b] := by
  rw [fftRec]
  simp [everyOther, fftRec_one, List.range_succ]

theorem fftRec_four (w a b c d : ℂ) :
    fftRec w [a, b, c, d] = .ok
      [a + c + (b + d), a - c + w * (b - d),
       a + c - (b + d), a - c - w * (b - d)] := by
  rw [fftRec]
  simp [everyOther, fftRec_pair, List.range_succ]

theorem fftRec_eight (w p0 p1 p2 p3 p4 p5 p6 p7 : ℂ) :
    fftRec w [p0, p1, p2, p3, p4, p5, p6, p7] = .ok
      [p0 + p4 + (p2 + p6) + (p1 + p5 + (p3 + p7)),
       p0 - p4 + w * (p2 - p6) + w * (p1 - p5 + w * (p3 - p7)),
       p0 + p4 - (p2 + p6) + w ^ 2 * (p1 + p5 - (p3 + p7)),
       p0 - p4 - w * (p2 - p6) + w ^ 3 * (p1 - p5 - w * (p3 - p7)),
       p0 + p4 + (p2 + p6) - (p1 + p5 + (p3 + p7)),
       p0 - p4 + w * (p2 - p6) - w * (p1 - p5 + w * (p3 - p7)),
       p0 + p4 - (p2 + p6) - w ^ 2 * (p1 + p5 - (p3 + p7)),
       p0 - p4 - w * (p2 - p6) - w ^ 3 * (p1 - p5 - w * (p3 - p7))] := by
  rw [fftRec]
  simp [everyOther, fftRec_four, List.range_succ]

theorem fftT_one (w a : ℂ) : fftT w [a] = .ok [a] := by
  rw [fftT]
  simp

theorem fftT_pair (w a b : ℂ) : fftT w [a, b] = .ok [a + b, a - b] := by
  rw [fftT]
  simp [everyOther, fftT_one, List.range_succ]

theorem fftT_four (w a b c d : ℂ) :
    fftT w [a, b, c, d] = .ok
      [a + c + (b + d), a - c + w * (b - d),
       a + c - (b + d), a - c - w * (b - d)] := by
  rw [fftT]
  simp [everyOther, fftT_pair, List.range_succ]

theorem fftT_eight (w p0 p1 p2 p3 p4 p5 p6 p7 : ℂ) :
    fftT w [p0, p1, p2, p3, p4, p5, p6, p7] = .ok
      [p0 + p4 + (p2 + p6) + (p1 + p5 + (p3 + p7)),
       p0 - p4 + w * w * (p2 - p6) + w * (p1 - p5 + w * w * (p3 - p7)),
       p0 + p4 - (p2 + p6) + w ^ 2 * (p1 + p5 - (p3 + p7)),
       p0 - p4 - w * w * (p2 - p6) + w ^ 3 * (p1 - p5 - w * w * (p3 - p7)),
       p0 + p4 + (p2 + p6) - (p1 + p5 + (p3 + p7)),
       p0 - p4 + w * w * (p2 - p6) - w * (p1 - p5 + w * w * (p3 - p7)),
       p0 + p4 - (p2 + p6) - w ^ 2 * (p1 + p5 - (p3 + p7)),
       p0 - p4 - w * w * (p2 - p6) - w ^ 3 * (p1 - p5 - w * w * (p3 - p7))] := by
  rw [fftT]
  simp [everyOther, fftT_four, List.range_succ]

/-! ### Structural lemmas -/

theorem fftRec_ok_length {w : ℂ} {p q : List ℂ} (h : fftRec w p = .ok q) :
    q.length = p.length := by
  rw [fftRec] at h
  split at h
  · rename_i h1
    cases h
    omega
  · split at h
    · cases h
    · rename_i h1 h0
      rcases he : fftRec w (everyOther p) with e | qe <;> rw [he] at h
      · cases h
      · rcases ho : fftRec w (everyOther p.tail) with e | qo <;> rw [ho] at h
        · cases h
        · cases h
          simp only [List.length_append, List.length_map, List.length_range,
            List.length_replicate]
          omega

theorem fftRec_isOk (w : ℂ) : ∀ (n : ℕ) (p : List ℂ), p.length ≤ n → p ≠ [] →
    ∃ q, fftRec w p = .ok q := by
  intro n
  induction n with
  | zero =>
    intro p hl hp
    cases p
    · exact absurd rfl hp
    · simp at hl
  | succ n ih =>
    intro p hl hp
    rw [fftRec]
    by_cases h1 : p.length = 1
    · exact ⟨p, by simp [h1]⟩
    · have h0 : p.length ≠ 0 := by
        cases p
        · exact absurd rfl hp
        · simp
      have hge : 2 ≤ p.length := by omega
      have he := everyOther_length (α := ℂ) p
      have ho := everyOther_length (α := ℂ) p.tail
      simp only [List.length_tail] at ho
      obtain ⟨qe, hqe⟩ := ih (everyOther p)
        (by omega) (by intro hnil; rw [hnil] at he; simp at he; omega)
      obtain ⟨qo, hqo⟩ := ih (everyOther p.tail)
        (by omega) (by intro hnil; rw [hnil] at ho; simp at ho; omega)
      rw [if_neg h1, if_neg h0, hqe, hqo]
      exact ⟨_, rfl⟩

theorem pad_of_pow2 {cs : List ℂ} (h : is_power_2 cs.length = true) : pad cs = cs := by
  rw [pad]
  simp [h]

theorem pad_formula : ∀ (m : ℕ) (cs : List ℂ),
    2 ^ Nat.clog 2 cs.length - cs.length ≤ m → 1 ≤ cs.length →
    pad cs = cs ++ List.replicate (2 ^ Nat.clog 2 cs.length - cs.length) 0 := by
  intro m
  induction m with
  | zero =>
    intro cs hm h1
    have hle : cs.length ≤ 2 ^ Nat.clog 2 cs.length := Nat.le_pow_clog one_lt_two _
    have heq : cs.length = 2 ^ Nat.clog 2 cs.length := by omega
    have hp : is_power_2 cs.length = true := by
      rw [heq]
      exact is_power_2_pow _
    rw [pad_of_pow2 hp]
    have hz : 2 ^ Nat.clog 2 cs.length - cs.length = 0 := by omega
    simp [hz]
  | succ m ih =>
    intro cs hm h1
    by_cases hp : is_power_2 cs.length = true
    · obtain ⟨k, hk⟩ := (is_power_2_iff h1).mp hp
      rw [pad_of_pow2 hp, hk, Nat.clog_pow 2 k one_lt_two]
      simp
    · have hle : cs.length ≤ 2 ^ Nat.clog 2 cs.length := Nat.le_pow_clog one_lt_two _
      have hne : cs.length ≠ 2 ^ Nat.clog 2 cs.length := fun he =>
        hp (by rw [he]; exact is_power_2_pow _)
      have hlt : cs.length < 2 ^ Nat.clog 2 cs.length := lt_of_le_of_ne hle hne
      have hc : Nat.clog 2 (cs.length + 1) = Nat.clog 2 cs.length :=
        le_antisymm ((Nat.le_pow_iff_clog_le one_lt_two).mp (by omega))
          (Nat.clog_mono_right 2 (by omega))
      have hlen : (cs ++ [0]).length = cs.length + 1 := by simp
      rw [pad, if_neg hp, ih (cs ++ [0]) (by rw [hlen, hc]; omega) (by rw [hlen]; omega)]
      rw [hlen, hc, List.append_assoc]
      congr 1
      have hstep : 2 ^ Nat.clog 2 cs.length - cs.length
          = (2 ^ Nat.clog 2 cs.length - (cs.length + 1)) + 1 := by omega
      rw [hstep, List.replicate_succ]
      rfl

theorem pad_length {cs : List ℂ} (h1 : 1 ≤ cs.length) :
    (pad cs).length = 2 ^ Nat.clog 2 cs.length := by
  rw [pad_formula _ cs le_rfl h1]
  have hle : cs.length ≤ 2 ^ Nat.clog 2 cs.length := Nat.le_pow_clog one_lt_two _
  simp
  omega

theorem evalPoly_append (as bs : List ℂ) (x : ℂ) :
    evalPoly (as ++ bs) x = evalPoly as x + x ^ as.length * evalPoly bs x := by
  induction as with
  | nil => simp [evalPoly]
  | cons a as ih =>
    simp [evalPoly, ih]
    ring

theorem evalPoly_replicate_zero (k : ℕ) (x : ℂ) :
    evalPoly (List.replicate k 0) x = 0 := by
  induction k with
  | zero => simp [evalPoly]
  | succ k ih => simp [List.replicate_succ, evalPoly, ih]

/-! ### Roots of unity: concrete values used by the claims about `N = 8` -/

theorem exp_pi_div_two_mul_I : Complex.exp ((Real.pi / 2 : ℝ) * Complex.I) = Complex.I := by
  rw [Complex.exp_mul_I, ← Complex.ofReal_cos, ← Complex.ofReal_sin,
    Real.cos_pi_div_two, Real.sin_pi_div_two]
  simp

theorem root8_sq : Complex.exp (2 * Real.pi * Complex.I / 8) ^ 2 = Complex.I := by
  rw [← Complex.exp_nat_mul]
  have h : ((2 : ℕ) : ℂ) * (2 * (Real.pi : ℂ) * Complex.I / 8)
      = ((Real.pi / 2 : ℝ) : ℂ) * Complex.I := by
    push_cast
    ring
  rw [h, exp_pi_div_two_mul_I]

theorem conj_root8_sq : Complex.exp (-2 * Real.pi * Complex.I / 8) ^ 2 = -Complex.I := by
  rw [← Complex.exp_nat_mul]
  have h : ((2 : ℕ) : ℂ) * (-2 * (Real.pi : ℂ) * Complex.I / 8)
      = -(((Real.pi / 2 : ℝ) : ℂ) * Complex.I) := by
    push_cast
    ring
  rw [h, Complex.exp_neg, exp_pi_div_two_mul_I, Complex.inv_I]

theorem I_ne_one : Complex.I ≠ 1 := by
  intro h
  have hre := congrArg Complex.re h
  simp at hre

theorem conj_forward_root (n : ℕ) :
    starRingEnd ℂ (Complex.exp (2 * Real.pi * Complex.I / (n : ℂ)))
      = Complex.exp (-2 * Real.pi * Complex.I / (n : ℂ)) := by
  rw [← Complex.exp_conj]
  congr 1
  simp [map_div₀, Complex.conj_I, Complex.conj_ofReal, map_natCast, map_ofNat]

/-- The kernel on the coefficients of `x^3` padded to length 8, for any root:
the root is reused unreduced by the recursion, so the output carries `w^2`
where the transform at the true eighth root of unity needs `w^3`. -/
theorem fftRec_x_cubed (w : ℂ) :
    fftRec w [0, 0, 0, 1, 0, 0, 0, 0] =
      .ok [1, w ^ 2, -w ^ 2, -w ^ 4, -1, -w ^ 2, w ^ 2, w ^ 4] := by
  rw [fftRec_eight]
  simp only [Except.ok.injEq, List.cons.injEq, and_true]
  refine ⟨by ring, by ring, by ring, by ring, by ring, by ring, by ring, by ring⟩

/-- `evaluate` on `P(x) = x^3` with `N = 8`: the concrete spectrum the code
returns, with `w^2 = i` and `w^4 = -1` substituted for `w = e^{2πi/8}`. -/
theorem fft_x_cubed :
    fft ([0, 0, 0, 1, 0, 0, 0, 0] : List ℂ) =
      .ok [1, Complex.I, -Complex.I, 1, -1, -Complex.I, Complex.I, -1] := by
  have hpad : pad ([0, 0, 0, 1, 0, 0, 0, 0] : List ℂ) = [0, 0, 0, 1, 0, 0, 0, 0] :=
    pad_of_pow2 (by decide)
  rw [fft]
  simp only [hpad, List.length_cons, List.length_nil, Nat.cast_ofNat]
  rw [if_neg (by norm_num)]
  norm_num [fftRec_x_cubed]
  have h4 : Complex.exp (2 * Real.pi * Complex.I / 8) ^ 4 = -1 := by
    rw [show Complex.exp (2 * Real.pi * Complex.I / 8) ^ 4
        = (Complex.exp (2 * Real.pi * Complex.I / 8) ^ 2) ^ 2 by ring, root8_sq,
      Complex.I_sq]
  rw [root8_sq, h4]
  norm_num

/-- `interpolate` applied to the spectrum that `evaluate` produced for
`P(x) = x^3`: the raw output of the conjugate-root kernel divided by 8,
entry by entry, as a function of `v = e^{-2πi/8}`. -/
theorem ifft_spectrum_x_cubed :
    ifft ([1, Complex.I, -Complex.I, 1, -1, -Complex.I, Complex.I, -1] : List ℂ) =
      .ok [0,
        (2 + 2 * Complex.exp (-2 * Real.pi * Complex.I / 8) ^ 2) / 8,
        0,
        (2 + 2 * Complex.I * Complex.exp (-2 * Real.pi * Complex.I / 8)
          + 2 * Complex.I * Complex.exp (-2 * Real.pi * Complex.I / 8) ^ 3
          - 2 * Complex.exp (-2 * Real.pi * Complex.I / 8) ^ 4) / 8,
        0,
        (2 - 4 * Complex.I * Complex.exp (-2 * Real.pi * Complex.I / 8)
          - 2 * Complex.exp (-2 * Real.pi * Complex.I / 8) ^ 2) / 8,
        0,
        (2 + 2 * Complex.I * Complex.exp (-2 * Real.pi * Complex.I / 8)
          - 2 * Complex.I * Complex.exp (-2 * Real.pi * Complex.I / 8) ^ 3
          + 2 * Complex.exp (-2 * Real.pi * Complex.I / 8) ^ 4) / 8] := by
  rw [ifft]
  simp only [List.length_cons, List.length_nil, Nat.cast_ofNat]
  rw [if_neg (by decide), if_neg (by norm_num), fftRec_eight]
  simp only [List.map_cons, List.map_nil, Except.ok.injEq, List.cons.injEq, and_true]
  refine ⟨by ring_nf, by ring_nf, by ring_nf, by ring_nf, by ring_nf, by ring_nf,
    by ring_nf, by ring_nf⟩

/-- `ifft` on an arbitrary four-point sample list, evaluated. -/
theorem ifft_four (y0 y1 y2 y3 : ℂ) :
    ifft [y0, y1, y2, y3] = .ok
      [(y0 + y2 + (y1 + y3)) / 4,
       (y0 - y2 + Complex.exp (-2 * Real.pi * Complex.I / 4) * (y1 - y3)) / 4,
       (y0 + y2 - (y1 + y3)) / 4,
       (y0 - y2 - Complex.exp (-2 * Real.pi * Complex.I / 4) * (y1 - y3)) / 4] := by
  rw [ifft]
  norm_num [fftRec_four, show is_power_2 4 = true from by decide]

/-! ### The claims -/

/-- C1: the claim says `evaluate(P)[k]` equals the direct evaluation of `P`
at `ω_N^k` for every power-of-two length `N` and `k < N`.  The code refutes
it at `N = 8`: for `P(x) = x^3` (coefficients `[0,0,0,1,0,0,0,0]`) the code
returns spectrum entry `1 = w^2 = i`, while the direct evaluation at
`ω_8^1` is `w^3 ≠ i` — the kernel hands the unreduced root to its
sub-calls, which is only harmless for `N ≤ 4`. -/
theorem C1_evaluate_disagrees_with_direct_evaluation :
    ∃ q, fft ([0, 0, 0, 1, 0, 0, 0, 0] : List ℂ) = .ok q ∧
      q.getD 1 0 = Complex.I ∧
      evalPoly [0, 0, 0, 1, 0, 0, 0, 0]
        (Complex.exp (2 * Real.pi * Complex.I / 8)) ≠ Complex.I := by
  refine ⟨_, fft_x_cubed, by norm_num, ?_⟩
  have he : evalPoly [0, 0, 0, 1, 0, 0, 0, 0] (Complex.exp (2 * Real.pi * Complex.I / 8))
      = Complex.exp (2 * Real.pi * Complex.I / 8) ^ 3 := by
    simp [evalPoly]
    ring
  rw [he]
  intro hc
  have h3 : Complex.exp (2 * Real.pi * Complex.I / 8) ^ 3
      = Complex.I * Complex.exp (2 * Real.pi * Complex.I / 8) := by
    rw [show Complex.exp (2 * Real.pi * Complex.I / 8) ^ 3
        = Complex.exp (2 * Real.pi * Complex.I / 8) ^ 2
          * Complex.exp (2 * Real.pi * Complex.I / 8) by ring, root8_sq]
  rw [h3] at hc
  have hw : Complex.exp (2 * Real.pi * Complex.I / 8) = 1 := by
    have hIne : Complex.I ≠ 0 := Complex.I_ne_zero
    field_simp at hc
    exact hc
  have hsq := root8_sq
  rw [hw] at hsq
  norm_num at hsq
  exact I_ne_one hsq.symm

/-- C2: the claim says `interpolate(evaluate(P)) == P` for every
power-of-two-length `P`.  The code refutes it at `N = 8`: for
`P(x) = x^3` the round trip returns `(2 - 2i)/8 ≠ 0` in component 1. -/
theorem C2_roundtrip_not_identity :
    ∃ ys q, fft ([0, 0, 0, 1, 0, 0, 0, 0] : List ℂ) = .ok ys ∧
      ifft ys = .ok q ∧
      q.getD 1 0 ≠ ([0, 0, 0, 1, 0, 0, 0, 0] : List ℂ).getD 1 0 := by
  refine ⟨_, _, fft_x_cubed, ifft_spectrum_x_cubed, ?_⟩
  simp only [List.getD_cons_succ, List.getD_cons_zero]
  rw [conj_root8_sq]
  intro hc
  rw [div_eq_zero_iff] at hc
  rcases hc with hc | hc
  · have hI : Complex.I = 1 := by linear_combination (-1 / 2 : ℂ) * hc
    exact I_ne_one hI
  · norm_num at hc

/-- C3: on a power-of-two-length input, `ifft` runs the very same recursive
kernel as the forward transform but at the complex conjugate of the forward
root `e^{2πi/N}`, and then divides every entry of the kernel's output by `N`
exactly once, after the recursion has completed (the `1/N` factor is applied
to each final entry, not folded into the root handed to the recursion). -/
theorem C3_ifft_is_conjugate_kernel_with_posthoc_division (ys : List ℂ)
    (h : ∃ k, ys.length = 2 ^ k) :
    ∃ q, fftRec (starRingEnd ℂ
        (Complex.exp (2 * Real.pi * Complex.I / (ys.length : ℂ)))) ys = .ok q ∧
      ifft ys = .ok (q.map fun y => y / (ys.length : ℂ)) := by
  obtain ⟨k, hk⟩ := h
  have h0 : ys.length ≠ 0 := by
    have := Nat.two_pow_pos k
    omega
  have hne : ys ≠ [] := by
    intro hnil
    rw [hnil] at h0
    simp at h0
  have hp : is_power_2 ys.length = true := (is_power_2_iff (by omega)).mpr ⟨k, hk⟩
  obtain ⟨q, hq⟩ := fftRec_isOk
    (Complex.exp (-2 * Real.pi * Complex.I / (ys.length : ℂ))) ys.length ys le_rfl hne
  refine ⟨q, ?_, ?_⟩
  · rw [conj_forward_root]
    exact hq
  · rw [ifft, if_neg (by simp [hp]), if_neg h0, hq]

/-- C3 witness: the theorem applied to the concrete sample list `[4,0,0,0]`. -/
theorem C3_witness :
    ∃ q, fftRec (starRingEnd ℂ (Complex.exp (2 * Real.pi * Complex.I /
        ((List.length ([4, 0, 0, 0] : List ℂ)) : ℂ)))) ([4, 0, 0, 0] : List ℂ) = .ok q ∧
      ifft ([4, 0, 0, 0] : List ℂ)
        = .ok (q.map fun y => y / ((List.length ([4, 0, 0, 0] : List ℂ)) : ℂ)) :=
  C3_ifft_is_conjugate_kernel_with_posthoc_division [4, 0, 0, 0] ⟨2, by norm_num⟩

/-- C4: on a nonempty input, the padding step appends zero entries on the
high-index (higher-degree, under the ascending-degree convention) end,
reaches exactly the smallest power of two that is at least the input's
length, preserves the value of the polynomial at every point, and returns
the input unchanged when its length already passes the power-of-two check
(which includes length 1). -/
theorem C4_pad_appends_high_degree_zeros (cs : List ℂ) (h : cs ≠ []) :
    pad cs = cs ++ List.replicate ((pad cs).length - cs.length) 0 ∧
    (∃ k, (pad cs).length = 2 ^ k) ∧
    cs.length ≤ (pad cs).length ∧
    (∀ m, cs.length ≤ 2 ^ m → (pad cs).length ≤ 2 ^ m) ∧
    (∀ x, evalPoly (pad cs) x = evalPoly cs x) ∧
    (is_power_2 cs.length = true → pad cs = cs) := by
  have h1 : 1 ≤ cs.length := by
    cases cs
    · exact absurd rfl h
    · simp
  have hle : cs.length ≤ 2 ^ Nat.clog 2 cs.length := Nat.le_pow_clog one_lt_two _
  have hf := pad_formula _ cs le_rfl h1
  have hlen := pad_length h1
  refine ⟨?_, ⟨_, hlen⟩, by omega, ?_, ?_, fun hp => pad_of_pow2 hp⟩
  · rw [hlen]
    exact hf
  · intro m hm
    rw [hlen]
    exact Nat.pow_le_pow_right (by norm_num) ((Nat.le_pow_iff_clog_le one_lt_two).mp hm)
  · intro x
    rw [hf, evalPoly_append, evalPoly_replicate_zero]
    ring

/-- C4 witness: the theorem applied to the concrete input `[5, 2, 1]`. -/
theorem C4_witness :
    pad ([5, 2, 1] : List ℂ)
        = [5, 2, 1] ++ List.replicate ((pad ([5, 2, 1] : List ℂ)).length - 3) 0 ∧
    (∃ k, (pad ([5, 2, 1] : List ℂ)).length = 2 ^ k) ∧
    3 ≤ (pad ([5, 2, 1] : List ℂ)).length ∧
    (∀ m, 3 ≤ 2 ^ m → (pad ([5, 2, 1] : List ℂ)).length ≤ 2 ^ m) ∧
    (∀ x, evalPoly (pad ([5, 2, 1] : List ℂ)) x = evalPoly [5, 2, 1] x) ∧
    (is_power_2 3 = true → pad ([5, 2, 1] : List ℂ) = [5, 2, 1]) :=
  C4_pad_appends_high_degree_zeros [5, 2, 1] (by simp)

/-- C5 counterexample: the claim says `interpolate([4,0,0,0])` returns
`[4,0,0,0]`; the code returns `[1,1,1,1]` (the coefficients of
`1 + x + x^2 + x^3`, the polynomial whose value is `4` at `ω^0 = 1` and `0`
at the other fourth roots of unity). -/
theorem C5_counterexample :
    ifft ([4, 0, 0, 0] : List ℂ) = .ok [1, 1, 1, 1] ∧
    ifft ([4, 0, 0, 0] : List ℂ) ≠ .ok [4, 0, 0, 0] := by
  have h := ifft_four 4 0 0 0
  norm_num at h
  refine ⟨h, ?_⟩
  rw [h]
  simp only [Except.ok.injEq, List.cons.injEq, ne_eq]
  intro hc
  have h14 : (1 : ℂ) = 4 := hc.1
  norm_num at h14

/-- C5 as amended: the sample list in which every sample equals `4` — the
situation the spec's sentence describes ("all samples equal to 4 means the
polynomial is the constant 4") — interpolates to the constant polynomial,
coefficients `[4, 0, 0, 0]`. -/
theorem C5_interpolate_constant_samples :
    ifft ([4, 4, 4, 4] : List ℂ) = .ok [4, 0, 0, 0] := by
  have h := ifft_four 4 4 4 4
  norm_num at h
  exact h

/-- C6 counterexample: `3` is not a power of two, yet the kernel `_fft`
returns a result on a length-3 input (`[1,2,3]` with root `1` yields
`[6, 2, 0]`, the final `0` being the never-written cell of `q = [0]*3`)
instead of failing a precondition check. -/
theorem C6_counterexample :
    (¬ ∃ k, (3 : ℕ) = 2 ^ k) ∧ fftRec 1 ([1, 2, 3] : List ℂ) = .ok [6, 2, 0] := by
  constructor
  · intro ⟨k, hk⟩
    have h3 := (is_power_2_iff (by norm_num : (1 : ℕ) ≤ 3)).mpr ⟨k, hk⟩
    simp [is_power_2] at h3
  · rw [fftRec]
    norm_num [everyOther, fftRec_pair, fftRec_one, List.range_succ]

/-- C6 as amended: `_fft` performs no precondition check at all — for every
root and every nonempty input, of any length, it silently returns a result;
the power-of-two guarantee lives only in its callers (`fft` pads, `ifft`
asserts). -/
theorem C6_kernel_returns_silently (w : ℂ) (p : List ℂ) (h : p ≠ []) :
    ∃ q, fftRec w p = .ok q :=
  fftRec_isOk w p.length p le_rfl h

/-- C6 witness: the amended theorem at the concrete non-power-of-two input
`[1, 2, 3]` with root `1`. -/
theorem C6_witness : ∃ q, fftRec 1 ([1, 2, 3] : List ℂ) = .ok q :=
  C6_kernel_returns_silently 1 [1, 2, 3] (by simp)

/-- C7 counterexample: the empty list's length `0` is not a power of two,
yet `ifft []` does not fail with the assertion — `is_power_2 0` is true, so
the assert passes and the failure is the division by zero in the root
computation. -/
theorem C7_counterexample :
    (¬ ∃ k, (0 : ℕ) = 2 ^ k) ∧
    ifft ([] : List ℂ) = .error PyErr.zeroDivisionError ∧
    ifft ([] : List ℂ) ≠ .error PyErr.assertionError := by
  refine ⟨?_, ?_, ?_⟩
  · intro ⟨k, hk⟩
    have := Nat.two_pow_pos k
    omega
  · rw [ifft]
    simp only [List.length_nil, show is_power_2 0 = true from by decide]
    norm_num
  · rw [ifft]
    simp only [List.length_nil, show is_power_2 0 = true from by decide]
    norm_num
    decide

/-- C7 as amended: for every nonempty sample list whose length is not a
power of two, `ifft` fails with the assertion failure; `ifft` returns a
value exactly when the length is a power of two (in particular it never
pads: on the empty list, whose length is not a power of two, it fails too,
but with a division-by-zero error because `is_power_2 0` is true); and any
returned value has exactly the input's length (no truncation or padding on
the inverse path). -/
theorem C7_ifft_fails_fast (ys : List ℂ) :
    (ys ≠ [] → (¬ ∃ k, ys.length = 2 ^ k) → ifft ys = .error PyErr.assertionError) ∧
    ((∃ q, ifft ys = .ok q) ↔ ∃ k, ys.length = 2 ^ k) ∧
    (∀ q, ifft ys = .ok q → q.length = ys.length) := by
  have key : ∀ q, ifft ys = .ok q → (∃ k, ys.length = 2 ^ k) ∧ q.length = ys.length := by
    intro q hq
    rw [ifft] at hq
    by_cases hp : is_power_2 ys.length = false
    · rw [if_pos hp] at hq
      cases hq
    · rw [if_neg hp] at hq
      by_cases h0 : ys.length = 0
      · rw [if_pos h0] at hq
        cases hq
      · rw [if_neg h0] at hq
        rcases hf : fftRec (Complex.exp (-2 * Real.pi * Complex.I / (ys.length : ℂ))) ys
          with e | qf <;> rw [hf] at hq
        · cases hq
        · cases hq
          refine ⟨(is_power_2_iff (by omega)).mp (by simpa using hp), ?_⟩
          simp [fftRec_ok_length hf]
  refine ⟨?_, ⟨fun ⟨q, hq⟩ => (key q hq).1, ?_⟩, fun q hq => (key q hq).2⟩
  · intro hne hnk
    have h1 : 1 ≤ ys.length := List.length_pos.mpr hne
    have hp : is_power_2 ys.length = false := by
      rcases hb : is_power_2 ys.length
      · rfl
      · exact absurd ((is_power_2_iff h1).mp hb) hnk
    rw [ifft, if_pos hp]
  · rintro ⟨k, hk⟩
    have h0 : ys.length ≠ 0 := by
      have := Nat.two_pow_pos k
      omega
    have hne : ys ≠ [] := by
      intro hnil
      rw [hnil] at h0
      simp at h0
    have hp : is_power_2 ys.length = true := (is_power_2_iff (by omega)).mpr ⟨k, hk⟩
    obtain ⟨qf, hqf⟩ := fftRec_isOk
      (Complex.exp (-2 * Real.pi * Complex.I / (ys.length : ℂ))) ys.length ys le_rfl hne
    rw [ifft, if_neg (by simp [hp]), if_neg h0, hqf]
    exact ⟨_, rfl⟩

/-- C8 counterexample: `fft` does not leave its argument unchanged — after
`fft([1,1,1])` the caller's list holds `[1,1,1,0]` (the padding loop runs
`cs.append(0)` on the caller's own list object). -/
theorem C8_counterexample :
    fft_arg_after ([1, 1, 1] : List ℂ) = [1, 1, 1, 0] ∧
    fft_arg_after ([1, 1, 1] : List ℂ) ≠ [1, 1, 1] := by
  have h : fft_arg_after ([1, 1, 1] : List ℂ) = [1, 1, 1, 0] := by
    show pad [1, 1, 1] = [1, 1, 1, 0]
    rw [pad, if_neg (by decide)]
    have happ : ([1, 1, 1] : List ℂ) ++ [0] = [1, 1, 1, 0] := by simp
    rw [happ, pad_of_pow2 (by decide)]
  refine ⟨h, ?_⟩
  rw [h]
  intro hc
  have hlen := congrArg List.length hc
  simp at hlen

/-- C8 as amended: `fft` leaves the caller's list unchanged exactly when its
length already passes the power-of-two check; otherwise the call appends the
padding zeros to the caller's list in place.  (`_fft` and `ifft` only read
their arguments, which the embedding reflects by modelling them as pure
functions of the input; `fft` is the one operation with a visible write.) -/
theorem C8_argument_preserved_iff_pow2 (cs : List ℂ) :
    fft_arg_after cs = cs ↔ is_power_2 cs.length = true := by
  constructor
  · intro h
    by_contra hb
    have hf : is_power_2 cs.length = false := by
      rcases hx : is_power_2 cs.length
      · rfl
      · exact absurd hx hb
    have h1 : 1 ≤ cs.length := by
      rcases Nat.eq_zero_or_pos cs.length with h0 | h0
      · rw [h0] at hf
        simp [is_power_2] at hf
      · omega
    have hlen := pad_length h1
    have hle : cs.length ≤ 2 ^ Nat.clog 2 cs.length := Nat.le_pow_clog one_lt_two _
    have hne : cs.length ≠ 2 ^ Nat.clog 2 cs.length := fun he =>
      hb (by rw [he]; exact is_power_2_pow _)
    have hlc := congrArg List.length h
    rw [show fft_arg_after cs = pad cs from rfl, hlen] at hlc
    omega
  · intro h
    show pad cs = cs
    exact pad_of_pow2 h

/-- C9 counterexample: at the power-of-two length 8 the two kernel
formulations differ for the root `2` on the coefficients of `x^3`: the
source kernel (same root passed down) yields `w^2 = 4` in entry 1 where the
textbook kernel (squared root passed down) yields `w^3 = 8`. -/
theorem C9_counterexample :
    (∃ k, (8 : ℕ) = 2 ^ k) ∧
    fftRec 2 ([0, 0, 0, 1, 0, 0, 0, 0] : List ℂ) = .ok [1, 4, -4, -16, -1, -4, 4, 16] ∧
    fftT 2 ([0, 0, 0, 1, 0, 0, 0, 0] : List ℂ) = .ok [1, 8, -4, -32, -1, -8, 4, 32] ∧
    fftRec 2 ([0, 0, 0, 1, 0, 0, 0, 0] : List ℂ)
      ≠ fftT 2 ([0, 0, 0, 1, 0, 0, 0, 0] : List ℂ) := by
  have h1 : fftRec 2 ([0, 0, 0, 1, 0, 0, 0, 0] : List ℂ)
      = .ok [1, 4, -4, -16, -1, -4, 4, 16] := by
    rw [fftRec_eight]
    norm_num
  have h2 : fftT 2 ([0, 0, 0, 1, 0, 0, 0, 0] : List ℂ)
      = .ok [1, 8, -4, -32, -1, -8, 4, 32] := by
    rw [fftT_eight]
    norm_num
  refine ⟨⟨3, by norm_num⟩, h1, h2, ?_⟩
  rw [h1, h2]
  simp only [Except.ok.injEq, List.cons.injEq, ne_eq]
  intro hc
  have h48 : (4 : ℂ) = 8 := hc.2.1
  norm_num at h48

/-- C9 as amended: the unreduced-root kernel and the textbook squared-root
kernel agree for every root and all inputs of length 1, 2 and 4 (below
length 8 the sub-kernels never consult their root beyond `w^0` and `w^1`),
but not in general — the counterexample shows them apart at length 8. -/
theorem C9_kernels_agree_up_to_four (w a b c d : ℂ) :
    fftRec w [a] = fftT w [a] ∧
    fftRec w [a, b] = fftT w [a, b] ∧
    fftRec w [a, b, c, d] = fftT w [a, b, c, d] := by
  refine ⟨?_, ?_, ?_⟩
  · rw [fftRec_one, fftT_one]
  · rw [fftRec_pair, fftT_pair]
  · rw [fftRec_four, fftT_four]

/-- C10: `is_power_2 0` is true (`0 & -1 == 0`), so the empty input passes
the power-of-two checks of both public operations — the `ifft` assertion
does not fire — and each instead fails with the unguarded division by zero
in the principal-root computation `e^{±2πi/0}`: the documented length ≥ 1
precondition is not checked at the public interface. -/
theorem C10_empty_input_divides_by_zero :
    is_power_2 0 = true ∧
    fft ([] : List ℂ) = .error PyErr.zeroDivisionError ∧
    ifft ([] : List ℂ) = .error PyErr.zeroDivisionError ∧
    ifft ([] : List ℂ) ≠ .error PyErr.assertionError := by
  have hp : pad ([] : List ℂ) = [] := pad_of_pow2 (by decide)
  refine ⟨by decide, ?_, ?_, ?_⟩
  · rw [fft]
    simp only [hp]
    norm_num
  · rw [ifft]
    simp only [List.length_nil, show is_power_2 0 = true from by decide]
    norm_num
  · rw [ifft]
    simp only [List.length_nil, show is_power_2 0 = true from by decide]
    norm_num
    decide

end FFTPy
